import Mathlib

set_option maxHeartbeats 1600000
set_option maxRecDepth 4096
set_option linter.unusedVariables false

/-!
Shallow embedding of the cron-job module `src/scheduled-workflow-with-timezone.js`.

JavaScript strings are modelled as `List Char`; JavaScript values reaching the
renderers are modelled by `JVal` (a string, an array, or any other value
carrying only its truthiness).  External collaborators are abstracted as
function parameters: `JSON.parse` as a `Str → Option JVal` (with `none`
standing for a thrown exception or, in the timezone model, for a failure),
and the `Intl.DateTimeFormat`-based hour rendering as a
`Nat → Except Unit (Option Nat)` (where `Except.error` models a thrown
exception and `Option` models `parseInt` producing `NaN`).
-/

/-- JavaScript strings, modelled as lists of characters. -/
abbrev Str := List Char

/-- Shorthand turning a Lean string literal into the character-list model. -/
def S (s : String) : Str := s.toList

/-- The JavaScript whitespace class `\s`, restricted to the ASCII characters
that can actually occur here. -/
def jsIsSpace (c : Char) : Bool :=
  c = ' ' || c = '\t' || c = '\n' || c = '\r' || c = '\x0b' || c = '\x0c'

/-- JavaScript `String.prototype.trim`. -/
def jsTrim (s : Str) : Str :=
  ((s.dropWhile jsIsSpace).reverse.dropWhile jsIsSpace).reverse

/-- Test whether `pat` is an initial segment of `s` (JS `startsWith`). -/
def leadsWith : Str → Str → Bool
  | [], _ => true
  | _ :: _, [] => false
  | p :: ps, c :: cs => p = c && leadsWith ps cs

theorem leadsWith_length {pat s : Str} (h : leadsWith pat s = true) :
    pat.length ≤ s.length := by
  induction pat generalizing s with
  | nil => simp
  | cons p ps ih =>
    cases s with
    | nil => simp [leadsWith] at h
    | cons c cs =>
      simp only [leadsWith, Bool.and_eq_true] at h
      simpa [List.length_cons] using ih h.2

/-- Fuel-indexed worker for `replaceAll` (the fuel, instantiated with the
string length, only makes the recursion structural; it never runs out). -/
def replaceAllF (pat rep : Str) : Nat → Str → Str
  | _, [] => []
  | 0, s => s
  | fuel + 1, c :: cs =>
    if pat ≠ [] ∧ leadsWith pat (c :: cs) = true then
      rep ++ replaceAllF pat rep fuel ((c :: cs).drop pat.length)
    else
      c :: replaceAllF pat rep fuel cs

/-- Replace every (leftmost, non-overlapping) occurrence of `pat` by `rep`
(JS `replace` with a `g`-flagged literal pattern, or `split`/`join`). -/
def replaceAll (pat rep s : Str) : Str := replaceAllF pat rep s.length s

theorem replaceAllF_irrel (pat rep : Str) :
    ∀ f1 : Nat, ∀ f2 : Nat, ∀ s : Str, s.length ≤ f1 → s.length ≤ f2 →
      replaceAllF pat rep f1 s = replaceAllF pat rep f2 s := by
  intro f1
  induction f1 with
  | zero =>
    intro f2 s h1 h2
    have : s = [] := List.length_eq_zero.mp (Nat.le_zero.mp h1)
    subst this
    cases f2 <;> rfl
  | succ f1 ih =>
    intro f2 s h1 h2
    cases s with
    | nil => cases f2 <;> rfl
    | cons c cs =>
      cases f2 with
      | zero => simp at h2
      | succ f2 =>
        simp only [replaceAllF]
        by_cases hb : pat ≠ [] ∧ leadsWith pat (c :: cs) = true
        · have hp : 0 < pat.length := List.length_pos.mpr hb.1
          have hd : ((c :: cs).drop pat.length).length ≤ f1 := by
            simp only [List.length_drop, List.length_cons]
            simp only [List.length_cons] at h1
            omega
          have hd2 : ((c :: cs).drop pat.length).length ≤ f2 := by
            simp only [List.length_drop, List.length_cons]
            simp only [List.length_cons] at h2
            omega
          simp only [if_pos hb]
          rw [ih f2 _ hd hd2]
        · simp only [if_neg hb]
          have hc : cs.length ≤ f1 := by
            simp only [List.length_cons] at h1
            omega
          have hc2 : cs.length ≤ f2 := by
            simp only [List.length_cons] at h2
            omega
          rw [ih f2 cs hc hc2]

theorem replaceAll_nil (pat rep : Str) : replaceAll pat rep [] = [] := rfl

theorem replaceAll_cons (pat rep : Str) (c : Char) (cs : Str) :
    replaceAll pat rep (c :: cs) =
      if pat ≠ [] ∧ leadsWith pat (c :: cs) = true then
        rep ++ replaceAll pat rep ((c :: cs).drop pat.length)
      else
        c :: replaceAll pat rep cs := by
  show replaceAllF pat rep (cs.length + 1) (c :: cs) = _
  simp only [replaceAllF]
  by_cases hb : pat ≠ [] ∧ leadsWith pat (c :: cs) = true
  · have hp : 0 < pat.length := List.length_pos.mpr hb.1
    simp only [if_pos hb]
    rw [replaceAllF_irrel pat rep cs.length ((c :: cs).drop pat.length).length
      ((c :: cs).drop pat.length)]
    · rfl
    · simp only [List.length_drop, List.length_cons]
      omega
    · exact Nat.le_refl _
  · simp only [if_neg hb]
    rfl

/-- Fuel-indexed worker for `splitOnStr`. -/
def splitOnStrF (sep : Str) : Nat → Str → List Str
  | _, [] => [[]]
  | 0, s => [s]
  | fuel + 1, c :: cs =>
    if sep ≠ [] ∧ leadsWith sep (c :: cs) = true then
      [] :: splitOnStrF sep fuel ((c :: cs).drop sep.length)
    else
      match splitOnStrF sep fuel cs with
      | [] => [[c]]
      | r :: rs => (c :: r) :: rs

/-- Split `s` at every occurrence of the (non-empty) separator `sep`
(JS `String.prototype.split` with a string separator). -/
def splitOnStr (sep s : Str) : List Str := splitOnStrF sep s.length s

theorem splitOnStrF_irrel (sep : Str) :
    ∀ f1 : Nat, ∀ f2 : Nat, ∀ s : Str, s.length ≤ f1 → s.length ≤ f2 →
      splitOnStrF sep f1 s = splitOnStrF sep f2 s := by
  intro f1
  induction f1 with
  | zero =>
    intro f2 s h1 h2
    have : s = [] := List.length_eq_zero.mp (Nat.le_zero.mp h1)
    subst this
    cases f2 <;> rfl
  | succ f1 ih =>
    intro f2 s h1 h2
    cases s with
    | nil => cases f2 <;> rfl
    | cons c cs =>
      cases f2 with
      | zero => simp at h2
      | succ f2 =>
        simp only [splitOnStrF]
        by_cases hb : sep ≠ [] ∧ leadsWith sep (c :: cs) = true
        · have hp : 0 < sep.length := List.length_pos.mpr hb.1
          have hd : ((c :: cs).drop sep.length).length ≤ f1 := by
            simp only [List.length_drop, List.length_cons]
            simp only [List.length_cons] at h1
            omega
          have hd2 : ((c :: cs).drop sep.length).length ≤ f2 := by
            simp only [List.length_drop, List.length_cons]
            simp only [List.length_cons] at h2
            omega
          simp only [if_pos hb]
          rw [ih f2 _ hd hd2]
        · simp only [if_neg hb]
          have hc : cs.length ≤ f1 := by
            simp only [List.length_cons] at h1
            omega
          have hc2 : cs.length ≤ f2 := by
            simp only [List.length_cons] at h2
            omega
          rw [ih f2 cs hc hc2]

theorem splitOnStr_nil (sep : Str) : splitOnStr sep [] = [[]] := rfl

theorem splitOnStr_cons (sep : Str) (c : Char) (cs : Str) :
    splitOnStr sep (c :: cs) =
      if sep ≠ [] ∧ leadsWith sep (c :: cs) = true then
        [] :: splitOnStr sep ((c :: cs).drop sep.length)
      else
        match splitOnStr sep cs with
        | [] => [[c]]
        | r :: rs => (c :: r) :: rs := by
  show splitOnStrF sep (cs.length + 1) (c :: cs) = _
  simp only [splitOnStrF]
  by_cases hb : sep ≠ [] ∧ leadsWith sep (c :: cs) = true
  · have hp : 0 < sep.length := List.length_pos.mpr hb.1
    simp only [if_pos hb]
    rw [splitOnStrF_irrel sep cs.length ((c :: cs).drop sep.length).length
      ((c :: cs).drop sep.length)]
    · rfl
    · simp only [List.length_drop, List.length_cons]
      omega
    · exact Nat.le_refl _
  · simp only [if_neg hb]
    rfl

/-- Substring test (JS `String.prototype.includes` / `indexOf !== -1`). -/
def hasSub : Str → Str → Bool
  | [], pat => leadsWith pat []
  | c :: cs, pat => leadsWith pat (c :: cs) || hasSub cs pat

/-- Index of the first occurrence of `pat` in `s`, if any
(JS `match`/`search` for a literal pattern). -/
def indexOfSub (s pat : Str) : Option Nat :=
  match s with
  | [] => if leadsWith pat [] then some 0 else none
  | c :: cs =>
    if leadsWith pat (c :: cs) then some 0 else (indexOfSub cs pat).map (· + 1)

/-- JS `String.prototype.toLowerCase` (ASCII). -/
def lowerStr (s : Str) : Str := s.map Char.toLower

/-- A JavaScript value as seen by the rendering pipeline: a string, an array,
or any other value (of which only the truthiness matters here). -/
inductive JVal where
  | str : Str → JVal
  | arr : List JVal → JVal
  | other : Bool → JVal

/-- JavaScript truthiness of a `JVal` (an `other b` value carries its
truthiness `b`; note that `[]` is truthy and `""` is falsy in JS). -/
def truthyJV : JVal → Bool
  | .str s => !s.isEmpty
  | .arr _ => true
  | .other b => b

/-- Source lines 106-108: `cleanListItemText` strips one leading `"- "`,
turns every escaped-newline sequence into a space, and trims. -/
def cleanListItemText (t : Str) : Str :=
  jsTrim (replaceAll (S "\\n") (S " ") (if leadsWith (S "- ") t then t.drop 2 else t))

/-- Character class `[\w\s()]` of the leading-ordinal regex in
`createListHtml` (line 114). -/
def isWordSpaceParen (c : Char) : Bool :=
  c.isAlphanum || c = '_' || c = '(' || c = ')' || jsIsSpace c

/-- Source line 114: `replace(/^\s*\d\.\s*([\w\s()]+:)?/i, '')`.  After
leading whitespace, a single digit and a dot, the optional group greedily
matches a non-empty run of word/space/paren characters that must be followed
by a colon; if the colon is not immediately after the maximal run the group
matches nothing and only `\s*\d\.\s*` is removed.  If no digit-dot is found at
the start, nothing is removed. -/
def stripLeadingOrdinal (s : Str) : Str :=
  match s.dropWhile jsIsSpace with
  | d :: rest =>
    if d.isDigit then
      match rest with
      | '.' :: afterDot =>
        let wRun := afterDot.takeWhile isWordSpaceParen
        let afterRun := afterDot.drop wRun.length
        if wRun ≠ [] ∧ afterRun.head? = some ':' then afterRun.drop 1
        else afterDot.dropWhile jsIsSpace
      | _ => s
    else s
  | [] => s

/-- The placeholder paragraph of `createListHtml` (line 111). -/
def listPlaceholder (title : Str) : Str :=
  S "<p>No " ++ lowerStr title ++ S " provided.</p>"

/-- Source lines 110-134: `createListHtml`. -/
def createListHtml (v : JVal) (title : Str) : Str :=
  match v with
  | .str s =>
    if jsTrim s = [] then listPlaceholder title
    else
      let c1 := replaceAll (S "**") [] s
      let c2 := stripLeadingOrdinal c1
      let cleanedStr := jsTrim (replaceAll (S "---") [] c2)
      let items := ((splitOnStr (S "\\n- ") cleanedStr).map cleanListItemText).filter
        (fun i => i ≠ [])
      if items.length = 0 ∨ (items.length = 1 ∧ hasSub cleanedStr (S "\\n- ") = false) then
        S "<p>" ++ replaceAll (S "\\n") (S "<br>") cleanedStr ++ S "</p>"
      else
        S "<ul>" ++
          items.foldl (fun acc it => if it ≠ [] then acc ++ S "<li>" ++ it ++ S "</li>" else acc)
            [] ++ S "</ul>"
  | _ => listPlaceholder title

/-- Bulleted-list body shared by the Visual Cues branch (lines 146-151):
split on the bullet delimiter, clean, drop empties, emit `<li>` items. -/
def bulletItemsHtml (s : Str) : Str :=
  (((splitOnStr (S "\\n- ") s).map cleanListItemText).filter (fun i => i ≠ [])).foldl
    (fun acc it => acc ++ S "<li>" ++ it ++ S "</li>") []

/-- Source lines 136-165: `formatSampleScriptHtml`.  The two regexes
`/Visual Cues:([\s\S]*?)(Voiceover\/Script:|$)/i` and
`/Voiceover\/Script:([\s\S]*)/i` are modelled by case-insensitive substring
search: the Visual Cues capture runs from after the first `Visual Cues:` to
the first following `Voiceover/Script:` (or the end), the Voiceover capture
from after the first `Voiceover/Script:` to the end. -/
def formatSampleScriptHtml (v : JVal) : Str :=
  match v with
  | .str s =>
    if jsTrim s = [] then S "<p>No sample script provided.</p>"
    else
      let cleaned := replaceAll (S "**") [] s
      let low := lowerStr cleaned
      let visualPart : Option Str :=
        match indexOfSub low (S "visual cues:") with
        | none => none
        | some i =>
          let rest := cleaned.drop (i + (S "visual cues:").length)
          match indexOfSub (lowerStr rest) (S "voiceover/script:") with
          | none => some rest
          | some j => some (rest.take j)
      let voicePart : Option Str :=
        match indexOfSub low (S "voiceover/script:") with
        | none => none
        | some i => some (cleaned.drop (i + (S "voiceover/script:").length))
      let h1 : Str :=
        match visualPart with
        | some vc =>
          if jsTrim vc ≠ [] then
            S "<h4>Visual Cues:</h4><ul>" ++ bulletItemsHtml vc ++ S "</ul>"
          else S "<h4>Visual Cues:</h4><p>Not specified.</p>"
        | none => S "<h4>Visual Cues:</h4><p>Not specified.</p>"
      let h2 : Str :=
        match voicePart with
        | some vo =>
          if jsTrim vo ≠ [] then
            S "<h4>Voiceover/Script:</h4><p>" ++
              jsTrim (replaceAll (S "*\x22") (S "\x22") (replaceAll (S "\\n") (S "<br>") vo)) ++
              S "</p>"
          else S "<h4>Voiceover/Script:</h4><p>Not specified.</p>"
        | none => S "<h4>Voiceover/Script:</h4><p>Not specified.</p>"
      h1 ++ h2
  | _ => S "<p>No sample script provided.</p>"

/-- Source line 176: cleaning applied to each fragment of the fallback split
in `formatContentThemesHtml`: `replace(/^\s*\*\s*/, '')`, strip bold markers,
trim. -/
def cleanThemeFallback (t : Str) : Str :=
  let rest := t.dropWhile jsIsSpace
  let t1 :=
    match rest with
    | '*' :: r2 => r2.dropWhile jsIsSpace
    | _ => t
  jsTrim (replaceAll (S "**") [] t1)

/-- Source line 186: `replace(/^\s*[\d.]*\s*\*\s*/, '')` — removed only when
the leading run of whitespace, digits/dots, whitespace is followed by a `*`. -/
def stripLeadDigitsStarWs (t : Str) : Str :=
  let a := t.dropWhile jsIsSpace
  let b := a.dropWhile (fun c => c.isDigit || c = '.')
  let c := b.dropWhile jsIsSpace
  match c with
  | '*' :: r => r.dropWhile jsIsSpace
  | _ => t

/-- Test for the regex `/^\d+\.$/` (line 190): one or more digits then a dot,
and nothing else. -/
def isBareOrdinal (t : Str) : Bool :=
  let ds := t.takeWhile Char.isDigit
  ds ≠ [] && t.drop ds.length = ['.']

/-- Cleaning applied to every candidate theme inside the `forEach`
(lines 186-189). -/
def cleanThemeMain (t : Str) : Str :=
  let t1 := stripLeadDigitsStarWs t
  let t2 := replaceAll (S "**") [] t1
  let t3 := if leadsWith (S "- ") t2 then t2.drop 2 else t2
  jsTrim t3

/-- One step of the theme `forEach` (lines 184-194): non-string entries are
skipped; a cleaned theme is emitted unless it is empty, of length at most 1,
a single asterisk, a double dash, or a bare ordinal. -/
def themeLi (acc : Str) (th : JVal) : Str :=
  match th with
  | .str t =>
    let ct := cleanThemeMain t
    if ct ≠ [] ∧ 1 < ct.length ∧ ct ≠ S "*" ∧ ct ≠ S "--" ∧ isBareOrdinal ct = false then
      acc ++ S "<li>" ++ ct ++ S "</li>"
    else acc
  | _ => acc

/-- Source lines 167-197: `formatContentThemesHtml`.  `JSON.parse` is the
abstract parameter `jp` (`none` models a thrown parse error).  The local
`themes` is `some l` when it holds a JS array and `none` when `JSON.parse`
returned a non-array value (in which case `!Array.isArray(themes)` yields the
placeholder); a non-string non-array input leaves the initial empty array. -/
def formatContentThemesHtml (jp : Str → Option JVal) (v : JVal) : Str :=
  let themes : Option (List JVal) :=
    match v with
    | .arr l => some l
    | .str s =>
      match jp s with
      | some (.arr l) => some l
      | some _ => none
      | none =>
        some ((((splitOnStr (S "\\n- ") s).map cleanThemeFallback).filter
          (fun th => th ≠ [] ∧ th ≠ S "*" ∧ th ≠ S "--")).map JVal.str)
    | .other _ => some []
  match themes with
  | none => S "<p>No specific themes provided.</p>"
  | some l =>
    if l.length = 0 then S "<p>No specific themes provided.</p>"
    else
      let html := S "<ul>" ++ l.foldl themeLi [] ++ S "</ul>"
      if hasSub html (S "<li>") then html else S "<p>No specific themes provided.</p>"

/-- The three fixed hashtag section labels (line 204). -/
def hashLabels : List Str :=
  [S "Primary (Niche):", S "Secondary (Trending/Regional):", S "Broad Appeal:"]

/-- Accumulator state of the hashtag line walk (lines 205-207). -/
structure HState where
  html : Str
  currentTitle : Option Str
  currentTags : List Str
  foundContent : Bool

/-- Flushing the currently open hashtag section (lines 214-221 and 245-252):
with accumulated items it emits the heading and a list and marks content
found, otherwise it emits the heading with the per-section placeholder. -/
def flushSection (st : HState) : Str × Bool :=
  match st.currentTitle with
  | some t =>
    if 0 < st.currentTags.length then
      (st.html ++ S "<h4>" ++ t ++ S "</h4><ul>" ++
        st.currentTags.foldl (fun a tag => a ++ S "<li>" ++ tag ++ S "</li>") [] ++ S "</ul>",
        true)
    else (st.html ++ S "<h4>" ++ t ++ S "</h4><p>No specific hashtags listed.</p>",
      st.foundContent)
  | none => (st.html, st.foundContent)

/-- Test for the regex `/^\s*\d\.\s*$/` (line 235). -/
def isOrdinalLine (t : Str) : Bool :=
  match t.dropWhile jsIsSpace with
  | d :: '.' :: r => d.isDigit && decide (r.dropWhile jsIsSpace = [])
  | _ => false

/-- One line of the hashtag walk (lines 209-242). -/
def hashStep (st : HState) (line0 : Str) : HState :=
  let line := jsTrim line0
  match hashLabels.find? (fun t => leadsWith t line) with
  | some title =>
    let hf := flushSection st
    let contentAfterTitle := jsTrim (line.drop title.length)
    let tags := if leadsWith (S "- ") contentAfterTitle then
        [cleanListItemText contentAfterTitle]
      else []
    { html := hf.1, currentTitle := some title, currentTags := tags, foundContent := hf.2 }
  | none =>
    if st.currentTitle.isSome ∧ line ≠ [] ∧ leadsWith (S "---") line = false ∧
        isOrdinalLine line = false ∧ lowerStr line ≠ S "(e. g.," ∧ lowerStr line ≠ S "(e.g.," then
      if leadsWith (S "- ") line then
        { st with currentTags := st.currentTags ++ [cleanListItemText line] }
      else st
    else st

/-- Source lines 199-255: `formatHashtagStrategyHtml`. -/
def formatHashtagStrategyHtml (v : JVal) : Str :=
  match v with
  | .str s =>
    if jsTrim s = [] then S "<p>No hashtag strategy provided.</p>"
    else
      let cleaned := replaceAll (S "**") [] s
      let lines := splitOnStr (S "\\n") cleaned
      let st := lines.foldl hashStep ⟨[], none, [], false⟩
      let hf := flushSection st
      if hf.2 || hasSub hf.1 (S "<h4>") then hf.1 else S "<p>No hashtag strategy provided.</p>"
  | _ => S "<p>No hashtag strategy provided.</p>"

/-- The seven fixed section keys of the marketing-strategy document. -/
inductive SectionKey where
  | observations
  | keyTakeaways
  | sampleScript
  | technicalSpecifications
  | contentThemes
  | hashtagStrategy
  | postingFrequency
deriving DecidableEq

/-- The marketing-strategy document: the seven recognized keys plus the
`rawContent` fallback key, each present (`some`) or absent (`none`). -/
structure StrategyDoc where
  observations : Option JVal
  keyTakeaways : Option JVal
  sampleScript : Option JVal
  technicalSpecifications : Option JVal
  contentThemes : Option JVal
  hashtagStrategy : Option JVal
  postingFrequency : Option JVal
  rawContent : Option JVal

/-- The document with no keys at all (`{}`). -/
def emptyDoc : StrategyDoc := ⟨none, none, none, none, none, none, none, none⟩

/-- Field lookup for a section key. -/
def getKey (d : StrategyDoc) : SectionKey → Option JVal
  | .observations => d.observations
  | .keyTakeaways => d.keyTakeaways
  | .sampleScript => d.sampleScript
  | .technicalSpecifications => d.technicalSpecifications
  | .contentThemes => d.contentThemes
  | .hashtagStrategy => d.hashtagStrategy
  | .postingFrequency => d.postingFrequency

/-- Field update for a section key. -/
def setKey (d : StrategyDoc) (k : SectionKey) (v : Option JVal) : StrategyDoc :=
  match k with
  | .observations => { d with observations := v }
  | .keyTakeaways => { d with keyTakeaways := v }
  | .sampleScript => { d with sampleScript := v }
  | .technicalSpecifications => { d with technicalSpecifications := v }
  | .contentThemes => { d with contentThemes := v }
  | .hashtagStrategy => { d with hashtagStrategy := v }
  | .postingFrequency => { d with postingFrequency := v }

/-- Line 259: `Object.keys(marketingStrategy).length === 0`. -/
def docIsEmpty (d : StrategyDoc) : Bool :=
  d.observations.isNone && d.keyTakeaways.isNone && d.sampleScript.isNone &&
    d.technicalSpecifications.isNone && d.contentThemes.isNone &&
    d.hashtagStrategy.isNone && d.postingFrequency.isNone && d.rawContent.isNone

/-- JavaScript `a || …` on an optional value: keeps `a` only when truthy. -/
def jsTruthyOpt : Option JVal → Option JVal
  | none => none
  | some v => if truthyJV v then some v else none

/-- Line 276: `marketingStrategy[section.key] || (section.key === 'observations'
? marketingStrategy['rawContent'] : null)`, combined with the `if (content)`
truthiness test of line 277: `some v` exactly when the section body `v` will be
rendered. -/
def sectionContent (d : StrategyDoc) (k : SectionKey) : Option JVal :=
  match jsTruthyOpt (getKey d k) with
  | some v => some v
  | none => if k = .observations then jsTruthyOpt d.rawContent else none

/-- A section descriptor (lines 264-272). -/
structure SectionDescr where
  title : Str
  key : SectionKey
  processor : JVal → Str

/-- The fixed, ordered list of the seven sections (lines 264-272). -/
def sections (jp : Str → Option JVal) : List SectionDescr :=
  [⟨S "Observations", .observations, fun c => createListHtml c (S "Observations")⟩,
   ⟨S "Key Trend Takeaways", .keyTakeaways, fun c => createListHtml c (S "Key Trend Takeaways")⟩,
   ⟨S "Sample TikTok Script", .sampleScript, formatSampleScriptHtml⟩,
   ⟨S "Technical Specifications", .technicalSpecifications,
     fun c => createListHtml c (S "Technical Specifications")⟩,
   ⟨S "General Content Themes", .contentThemes, formatContentThemesHtml jp⟩,
   ⟨S "Hashtag Strategy", .hashtagStrategy, formatHashtagStrategyHtml⟩,
   ⟨S "Posting Frequency", .postingFrequency, fun c => createListHtml c (S "Posting Frequency")⟩]

/-- Line 279: a rendered fragment is kept only when it is truthy (non-empty)
and its lower-cased text contains none of the three suppression keywords. -/
def suppressedFrag (h : Str) : Bool :=
  decide (h = []) || hasSub (lowerStr h) (S "no information provided") ||
    hasSub (lowerStr h) (S "not specified") || hasSub (lowerStr h) (S "no specific")

/-- One iteration of the section loop (lines 275-285): the accumulator is the
html built so far together with the `hasContent` flag. -/
def assembleStep (d : StrategyDoc) (acc : Str × Bool) (sec : SectionDescr) : Str × Bool :=
  match sectionContent d sec.key with
  | none => acc
  | some c =>
    let sectionHtml := sec.processor c
    if suppressedFrag sectionHtml then acc
    else (acc.1 ++ S "<h3>" ++ sec.title ++ S "</h3>" ++ sectionHtml, true)

/-- The document title heading (line 262). -/
def headerHtml : Str := S "<h2>Marketing Strategy & Content Ideas</h2>"

/-- The section loop of lines 274-285 as a fold. -/
def assembleFold (jp : Str → Option JVal) (d : StrategyDoc) : Str × Bool :=
  (sections jp).foldl (assembleStep d) (headerHtml, false)

/-- Lines 292-297: the trailing paragraph extracted from `postingFrequency`
when that raw field is a truthy string matching
`/This strategy balances[\s\S]*/i`. -/
def trailerHtml (d : StrategyDoc) : Str :=
  match d.postingFrequency with
  | some (.str s) =>
    if s ≠ [] then
      match indexOfSub (lowerStr s) (S "this strategy balances") with
      | some i =>
        S "<p>" ++ jsTrim (replaceAll (S "\\n") (S " ") (replaceAll (S "**") [] (s.drop i))) ++
          S "</p>"
      | none => []
    else []
  | _ => []

/-- Number of leading JS whitespace characters. -/
def takeWs (s : Str) : Nat := (s.takeWhile jsIsSpace).length

/-- Greedy repetition count and consumed length for `(<br>\s*)+` starting at
the head of `s`: each repetition is a literal `<br>` followed by a maximal
whitespace run. -/
def countBrF : Nat → Str → Nat × Nat
  | 0, _ => (0, 0)
  | fuel + 1, s =>
    if leadsWith (S "<br>") s = true then
      let w := takeWs (s.drop 4)
      let nl := countBrF fuel (s.drop (4 + w))
      (nl.1 + 1, 4 + w + nl.2)
    else (0, 0)

/-- Greedy repetition count and consumed length for `(<br>\s*)+` at the head
of `s` (see `collapseBr`); defined through the fuel-indexed `countBrF`. -/
def countBr (s : Str) : Nat × Nat := countBrF s.length s

theorem countBrF_irrel :
    ∀ f1 : Nat, ∀ f2 : Nat, ∀ s : Str, s.length ≤ f1 → s.length ≤ f2 →
      countBrF f1 s = countBrF f2 s := by
  intro f1
  induction f1 with
  | zero =>
    intro f2 s h1 h2
    have hs : s = [] := List.length_eq_zero.mp (Nat.le_zero.mp h1)
    subst hs
    cases f2 with
    | zero => rfl
    | succ f2 => simp [countBrF, leadsWith]
  | succ f1 ih =>
    intro f2 s h1 h2
    by_cases hb : leadsWith (S "<br>") s = true
    · have h4 : (S "<br>").length ≤ s.length := leadsWith_length hb
      have he4 : (S "<br>").length = 4 := rfl
      rw [he4] at h4
      cases f2 with
      | zero => omega
      | succ f2 =>
        simp only [countBrF, if_pos hb]
        have hd : (s.drop (4 + takeWs (s.drop 4))).length ≤ f1 := by
          simp only [List.length_drop]
          omega
        have hd2 : (s.drop (4 + takeWs (s.drop 4))).length ≤ f2 := by
          simp only [List.length_drop]
          omega
        rw [ih f2 _ hd hd2]
    · cases f2 with
      | zero =>
        have hs : s = [] := List.length_eq_zero.mp (Nat.le_zero.mp h2)
        subst hs
        have hlw : leadsWith (S "<br>") ([] : Str) = false := by decide
        simp [countBrF, hlw]
      | succ f2 =>
        cases s with
        | nil => rfl
        | cons c cs => simp only [countBrF, if_neg hb]

theorem countBr_eq (s : Str) :
    countBr s =
      if leadsWith (S "<br>") s = true then
        ((countBr (s.drop (4 + takeWs (s.drop 4)))).1 + 1,
         4 + takeWs (s.drop 4) + (countBr (s.drop (4 + takeWs (s.drop 4)))).2)
      else (0, 0) := by
  by_cases hb : leadsWith (S "<br>") s = true
  · have h4 : (S "<br>").length ≤ s.length := leadsWith_length hb
    have he4 : (S "<br>").length = 4 := rfl
    rw [he4] at h4
    simp only [if_pos hb]
    show countBrF s.length s = _
    cases hl : s.length with
    | zero => omega
    | succ n =>
      simp only [countBrF, if_pos hb]
      rw [countBrF_irrel n (s.drop (4 + takeWs (s.drop 4))).length
        (s.drop (4 + takeWs (s.drop 4)))]
      · rfl
      · simp only [List.length_drop]
        omega
      · exact Nat.le_refl _
  · simp only [if_neg hb]
    show countBrF s.length s = _
    cases s with
    | nil => rfl
    | cons c cs => simp only [List.length_cons, countBrF, if_neg hb]

theorem countBr_consumed_pos (s : Str) (h : 2 ≤ (countBr s).1) : 1 ≤ (countBr s).2 := by
  rw [countBr_eq] at h ⊢
  by_cases hc : leadsWith (S "<br>") s = true
  · simp only [if_pos hc] at h ⊢
    omega
  · simp only [if_neg hc] at h
    omega

/-- Fuel-indexed worker for `collapseBr`. -/
def collapseBrF : Nat → Str → Str
  | _, [] => []
  | 0, s => s
  | fuel + 1, c :: cs =>
    if 2 ≤ (countBr (c :: cs)).1 then
      S "<br>" ++ collapseBrF fuel ((c :: cs).drop (countBr (c :: cs)).2)
    else c :: collapseBrF fuel cs

/-- Line 300: `replace(/(<br>\s*){2,}/g, '<br>')`.  The scan tries at every
position to match two or more greedy `<br>\s*` repetitions; a match is
replaced by a single `<br>` and scanning resumes after it. -/
def collapseBr (s : Str) : Str := collapseBrF s.length s

theorem collapseBrF_irrel :
    ∀ f1 : Nat, ∀ f2 : Nat, ∀ s : Str, s.length ≤ f1 → s.length ≤ f2 →
      collapseBrF f1 s = collapseBrF f2 s := by
  intro f1
  induction f1 with
  | zero =>
    intro f2 s h1 h2
    have hs : s = [] := List.length_eq_zero.mp (Nat.le_zero.mp h1)
    subst hs
    cases f2 <;> rfl
  | succ f1 ih =>
    intro f2 s h1 h2
    cases s with
    | nil => cases f2 <;> rfl
    | cons c cs =>
      cases f2 with
      | zero => simp at h2
      | succ f2 =>
        simp only [collapseBrF]
        by_cases hb : 2 ≤ (countBr (c :: cs)).1
        · have h1' : 1 ≤ (countBr (c :: cs)).2 := countBr_consumed_pos _ hb
          have hd : ((c :: cs).drop (countBr (c :: cs)).2).length ≤ f1 := by
            simp only [List.length_drop, List.length_cons]
            simp only [List.length_cons] at h1
            omega
          have hd2 : ((c :: cs).drop (countBr (c :: cs)).2).length ≤ f2 := by
            simp only [List.length_drop, List.length_cons]
            simp only [List.length_cons] at h2
            omega
          simp only [if_pos hb]
          rw [ih f2 _ hd hd2]
        · simp only [if_neg hb]
          have hc : cs.length ≤ f1 := by
            simp only [List.length_cons] at h1
            omega
          have hc2 : cs.length ≤ f2 := by
            simp only [List.length_cons] at h2
            omega
          rw [ih f2 cs hc hc2]

theorem collapseBr_nil : collapseBr [] = [] := rfl

theorem collapseBr_cons (c : Char) (cs : Str) :
    collapseBr (c :: cs) =
      if 2 ≤ (countBr (c :: cs)).1 then
        S "<br>" ++ collapseBr ((c :: cs).drop (countBr (c :: cs)).2)
      else c :: collapseBr cs := by
  show collapseBrF (cs.length + 1) (c :: cs) = _
  simp only [collapseBrF]
  by_cases hb : 2 ≤ (countBr (c :: cs)).1
  · have h1' : 1 ≤ (countBr (c :: cs)).2 := countBr_consumed_pos _ hb
    simp only [if_pos hb]
    rw [collapseBrF_irrel cs.length ((c :: cs).drop (countBr (c :: cs)).2).length
      ((c :: cs).drop (countBr (c :: cs)).2)]
    · rfl
    · simp only [List.length_drop, List.length_cons]
      omega
    · exact Nat.le_refl _
  · simp only [if_neg hb]
    rfl

/-- Lines 299-301: the final single-pass cleanup: escaped newlines to `<br>`,
collapse of `<br>` runs, removal of empty-paragraph artifacts. -/
def cleanupPass (h : Str) : Str :=
  replaceAll (S "<p><br></p>") [] (collapseBr (replaceAll (S "\\n") (S "<br>") h))

/-- The fixed fragment returned for an empty document (line 260). -/
def noStrategyFrag : Str :=
  S "<h2>Marketing Strategy & Content Ideas</h2><p>No detailed strategy information available.</p>"

/-- The fixed fragment returned when no section survived suppression
(line 287). -/
def noStrategyFrag2 : Str :=
  S "<h2>Marketing Strategy & Content Ideas</h2><p>No detailed strategy information available at this time.</p>"

/-- Source lines 258-303: `formatMarketingStrategyToHtml`. -/
def formatMarketingStrategyToHtml (jp : Str → Option JVal) (d : StrategyDoc) : Str :=
  if docIsEmpty d then noStrategyFrag
  else if (assembleFold jp d).2 = false then noStrategyFrag2
  else cleanupPass ((assembleFold jp d).1 ++ trailerHtml d)

/-- Abstract semantics of one timezone as seen by `convertLocalToUTC`
(lines 397-405): rendering a candidate UTC hour of today in the timezone and
parsing the result.  `Except.error` models a thrown exception (for instance an
invalid IANA identifier in the `Intl.DateTimeFormat` constructor), and
`Except.ok none` models `parseInt` yielding `NaN`. -/
abbrev TzFun := Nat → Except Unit (Option Nat)

/-- The candidate loop of `convertLocalToUTC` (lines 396-411): the first hour
of the list whose rendering succeeds and equals `localHour` is returned; a
thrown exception or an exhausted list falls back to `localHour` itself
(lines 412-418). -/
def convertLoop (tz : TzFun) (localHour : Nat) : List Nat → Nat
  | [] => localHour
  | h :: rest =>
    match tz h with
    | .error _ => localHour
    | .ok v => if v = some localHour then h else convertLoop tz localHour rest

/-- Source lines 393-419: `convertLocalToUTC`.  The `try`/`catch` and the
fallback make the embedded function total; it never raises. -/
def convertLocalToUTC (tz : TzFun) (localHour : Nat) : Nat :=
  convertLoop tz localHour (List.range 24)

/-- Companion of `convertLoop` that records whether the search actually found
a matching candidate (`none` exactly when `convertLoop` takes one of the two
fallback paths). -/
def searchLoop (tz : TzFun) (localHour : Nat) : List Nat → Option Nat
  | [] => none
  | h :: rest =>
    match tz h with
    | .error _ => none
    | .ok v => if v = some localHour then some h else searchLoop tz localHour rest

/-- Non-degraded resolution: `convertLocalToUTC` returned a found candidate
rather than the fallback `localHour`. -/
def nonDegraded (tz : TzFun) (localHour : Nat) : Bool :=
  (searchLoop tz localHour (List.range 24)).isSome

/-- The fields of a user record consumed by the scheduling pass: `timezone`
(a string or a missing/null value) and `email_time_hour` (a number or a
missing/null value). -/
structure UserRec where
  timezone : Option Str
  email_time_hour : Option Nat

/-- Line 452: `user.email_time_hour || 9` — JavaScript `||` takes the default
when the stored hour is missing or `0`, since `0` is falsy. -/
def resolveLocalHour : Option Nat → Nat
  | none => 9
  | some n => if n = 0 then 9 else n

/-- Line 451: `user.timezone || 'UTC'` — the empty string is falsy. -/
def resolveTimezone : Option Str → Str
  | none => S "UTC"
  | some s => if s = [] then S "UTC" else s

/-- The per-user schedule decision of one tick. -/
structure ScheduleDecision where
  utcHour : Nat
  analysisHour : Int
  analysisDue : Bool
  emailDue : Bool

/-- Source lines 449-472, body of the per-user loop of
`runScheduledWorkflows`: resolve the preference, convert it to a UTC hour,
derive the analysis hour `(utcHour - 1 + 24) % 24`, and compare both against
the current UTC hour.  `tzSem` gives the abstract semantics of each timezone
string. -/
def evaluateUser (tzSem : Str → TzFun) (currentHour : Nat) (u : UserRec) : ScheduleDecision :=
  let timezone := resolveTimezone u.timezone
  let localHour := resolveLocalHour u.email_time_hour
  let utcHour := convertLocalToUTC (tzSem timezone) localHour
  let analysisHour : Int := ((utcHour : Int) - 1 + 24) % 24
  { utcHour := utcHour
    analysisHour := analysisHour
    analysisDue := decide (analysisHour = (currentHour : Int))
    emailDue := decide (utcHour = currentHour) }

/-- The two push-loops of lines 446-472: the populations due for analysis and
due for email in the current tick. -/
def dueSets (tzSem : Str → TzFun) (currentHour : Nat) (users : List UserRec) :
    List UserRec × List UserRec :=
  users.foldl
    (fun acc u =>
      let d := evaluateUser tzSem currentHour u
      (if d.analysisDue then acc.1 ++ [u] else acc.1,
       if d.emailDue then acc.2 ++ [u] else acc.2))
    ([], [])

/-- A timezone semantics that always throws (for instance an invalid IANA
identifier, whatever the string). -/
def tzThrowSem : Str → TzFun := fun _ _ => .error ()

/-- The fixed-offset UTC+0 semantics assigned to every timezone string: the
rendered local hour of UTC hour `h` is `h` itself. -/
def tzUTCSem : Str → TzFun := fun _ h => .ok (some (h % 24))

/-- A fixed-offset timezone at UTC+5 with no daylight-saving rules: UTC hour
`h` renders as local hour `(h + 5) % 24`. -/
def tzPlus5 : TzFun := fun h => .ok (some ((h + 5) % 24))

/-- A `JSON.parse` model that throws on every input; real `JSON.parse` does
throw on the inputs at which this model is used below (blank strings are not
valid JSON). -/
def jpNone : Str → Option JVal := fun _ => none

theorem searchLoop_none_convertLoop (tz : TzFun) (lh : Nat) :
    ∀ l : List Nat, searchLoop tz lh l = none → convertLoop tz lh l = lh := by
  intro l
  induction l with
  | nil => intro _; rfl
  | cons h rest ih =>
    intro hs
    cases htz : tz h with
    | error u => simp only [convertLoop, htz]
    | ok v =>
      simp only [searchLoop, htz] at hs
      simp only [convertLoop, htz]
      by_cases hv : v = some lh
      · simp [hv] at hs
      · simp only [if_neg hv] at hs ⊢
        exact ih hs

theorem searchLoop_none_of_nomatch (tz : TzFun) (lh : Nat) :
    ∀ l : List Nat, (∀ h ∈ l, tz h ≠ .ok (some lh)) → searchLoop tz lh l = none := by
  intro l
  induction l with
  | nil => intro _; rfl
  | cons h rest ih =>
    intro hm
    cases htz : tz h with
    | error u => simp only [searchLoop, htz]
    | ok v =>
      have hne : v ≠ some lh := by
        intro hv
        exact hm h (by simp) (by rw [htz, hv])
      simp only [searchLoop, htz, if_neg hne]
      exact ih (fun x hx => hm x (by simp [hx]))

theorem searchLoop_none_of_error (tz : TzFun) (lh : Nat) :
    ∀ (l1 : List Nat) (h0 : Nat) (l2 : List Nat), tz h0 = .error () →
      (∀ h ∈ l1, tz h ≠ .error () ∧ tz h ≠ .ok (some lh)) →
      searchLoop tz lh (l1 ++ h0 :: l2) = none := by
  intro l1
  induction l1 with
  | nil =>
    intro h0 l2 herr _
    simp only [List.nil_append, searchLoop, herr]
  | cons h rest ih =>
    intro h0 l2 herr hm
    cases htz : tz h with
    | error u =>
      cases u
      exact absurd htz (hm h (by simp)).1
    | ok v =>
      have hne : v ≠ some lh := by
        intro hv
        exact (hm h (by simp)).2 (by rw [htz, hv])
      simp only [List.cons_append, searchLoop, htz, if_neg hne]
      exact ih h0 l2 herr (fun x hx => hm x (by simp [hx]))

theorem range_split_exists : ∀ n k : Nat, k < n → ∃ l2, List.range n = List.range k ++ k :: l2 := by
  intro n
  induction n with
  | zero => intro k hk; omega
  | succ n ih =>
    intro k hk
    by_cases hkn : k < n
    · obtain ⟨l2, hl2⟩ := ih k hkn
      exact ⟨l2 ++ [n], by rw [List.range_succ, hl2]; simp⟩
    · have : k = n := by omega
      subst this
      exact ⟨[], by rw [List.range_succ]⟩

/-- C3: if no candidate UTC hour in `0..23` renders (successfully) to
`localHour`, or if the rendering throws at some candidate before any match is
found, then `convertLocalToUTC` returns `localHour` unchanged.  The embedded
function is total (the `try`/`catch` of the source makes the original
non-raising), so returning at all is returning without raising. -/
theorem convertLocalToUTC_fail_soft (tz : TzFun) (localHour h0 : Nat)
    (hyp : (∀ h < 24, tz h ≠ .ok (some localHour)) ∨
      (h0 < 24 ∧ tz h0 = .error () ∧
        ∀ h < h0, tz h ≠ .error () ∧ tz h ≠ .ok (some localHour))) :
    convertLocalToUTC tz localHour = localHour := by
  apply searchLoop_none_convertLoop
  rcases hyp with hnm | ⟨hlt, herr, hbefore⟩
  · exact searchLoop_none_of_nomatch tz localHour _
      (fun h hh => hnm h (List.mem_range.mp hh))
  · obtain ⟨l2, hl2⟩ := range_split_exists 24 h0 hlt
    rw [hl2]
    exact searchLoop_none_of_error tz localHour _ h0 l2 herr
      (fun h hh => hbefore h (List.mem_range.mp hh))

/-- Witness for `convertLocalToUTC_fail_soft`: a timezone whose rendering
always throws; the preferred hour 7 is returned unchanged. -/
theorem convertLocalToUTC_fail_soft_witness :
    convertLocalToUTC (fun _ => .error ()) 7 = 7 :=
  convertLocalToUTC_fail_soft (fun _ => .error ()) 7 0
    (Or.inr ⟨by decide, rfl, fun h hh => absurd hh (by omega)⟩)

/-- C4: for the fixed-offset timezone UTC+5 (no daylight-saving rules),
`convertLocalToUTC` maps every local hour in `0..23` to
`(localHour - 5 + 24) mod 24`. -/
theorem convertLocalToUTC_fixed_offset_plus5 :
    ∀ lh : Nat, lh < 24 →
      (convertLocalToUTC tzPlus5 lh : Int) = ((lh : Int) - 5 + 24) % 24 := by
  decide

/-- Witness for `convertLocalToUTC_fixed_offset_plus5` at local hour 7. -/
theorem convertLocalToUTC_fixed_offset_plus5_witness :
    (convertLocalToUTC tzPlus5 7 : Int) = ((7 : Int) - 5 + 24) % 24 :=
  convertLocalToUTC_fixed_offset_plus5 7 (by decide)

/-- C1: for every user processed in a tick, the analysis trigger hour of the
schedule decision equals `(utcHour - 1 + 24) mod 24`, where `utcHour` is the
resolved UTC hour of that decision — for every value of the resolved hour in
`0..23`. -/
theorem scheduler_analysis_hour_eq (tzSem : Str → TzFun) (currentHour : Nat) (u : UserRec)
    (utcH : Nat) (hlt : utcH < 24)
    (hres : (evaluateUser tzSem currentHour u).utcHour = utcH) :
    (evaluateUser tzSem currentHour u).analysisHour = ((utcH : Int) - 1 + 24) % 24 := by
  rw [← hres]
  rfl

/-- Witness for `scheduler_analysis_hour_eq`: under a timezone semantics that
always throws, a user with no stored preferences resolves to UTC hour 9
(fallback of the default local hour 9) and analysis hour 8. -/
theorem scheduler_analysis_hour_eq_witness :
    (evaluateUser tzThrowSem 5 ⟨none, none⟩).analysisHour = ((9 : Int) - 1 + 24) % 24 :=
  scheduler_analysis_hour_eq tzThrowSem 5 ⟨none, none⟩ 9 (by decide) (by decide)

theorem searchLoop_found (tz : TzFun) (lh : Nat) :
    ∀ l : List Nat, ∀ h : Nat, searchLoop tz lh l = some h →
      convertLoop tz lh l = h ∧ h ∈ l := by
  intro l
  induction l with
  | nil => intro h hs; simp [searchLoop] at hs
  | cons a rest ih =>
    intro h hs
    cases htz : tz a with
    | error u => simp [searchLoop, htz] at hs
    | ok v =>
      by_cases hv : v = some lh
      · simp only [searchLoop, htz, if_pos hv, Option.some.injEq] at hs
        subst hs
        constructor
        · simp only [convertLoop, htz, if_pos hv]
        · simp
      · simp only [searchLoop, htz, if_neg hv] at hs
        obtain ⟨hc, hm⟩ := ih h hs
        constructor
        · simp only [convertLoop, htz, if_neg hv]
          exact hc
        · simp [hm]

theorem dueSets_eq_filters (tzSem : Str → TzFun) (currentHour : Nat) (users : List UserRec) :
    dueSets tzSem currentHour users =
      (users.filter (fun u => (evaluateUser tzSem currentHour u).analysisDue),
       users.filter (fun u => (evaluateUser tzSem currentHour u).emailDue)) := by
  have key : ∀ (us : List UserRec) (a e : List UserRec),
      us.foldl
        (fun acc u =>
          let d := evaluateUser tzSem currentHour u
          (if d.analysisDue then acc.1 ++ [u] else acc.1,
           if d.emailDue then acc.2 ++ [u] else acc.2))
        (a, e) =
      (a ++ us.filter (fun u => (evaluateUser tzSem currentHour u).analysisDue),
       e ++ us.filter (fun u => (evaluateUser tzSem currentHour u).emailDue)) := by
    intro us
    induction us with
    | nil => intro a e; simp
    | cons u rest ih =>
      intro a e
      simp only [List.foldl_cons, List.filter_cons]
      rw [ih]
      by_cases h1 : (evaluateUser tzSem currentHour u).analysisDue <;>
        by_cases h2 : (evaluateUser tzSem currentHour u).emailDue <;>
          simp [h1, h2]
  simpa using key users [] []

/-- C2: under non-degraded resolution of a user's preference, that user is
never in both the analysis-due and the email-due populations of the same
tick. -/
theorem scheduler_due_sets_disjoint (tzSem : Str → TzFun) (currentHour : Nat)
    (users : List UserRec) (u : UserRec) (hcur : currentHour < 24)
    (hnd : nonDegraded (tzSem (resolveTimezone u.timezone))
      (resolveLocalHour u.email_time_hour) = true) :
    ¬(u ∈ (dueSets tzSem currentHour users).1 ∧ u ∈ (dueSets tzSem currentHour users).2) := by
  rintro ⟨ha, he⟩
  rw [dueSets_eq_filters] at ha he
  simp only [List.mem_filter] at ha he
  have hadue : (evaluateUser tzSem currentHour u).analysisDue = true := ha.2
  have hedue : (evaluateUser tzSem currentHour u).emailDue = true := he.2
  obtain ⟨h, hsearch⟩ := Option.isSome_iff_exists.mp hnd
  obtain ⟨hconv, hmem⟩ := searchLoop_found _ _ _ _ hsearch
  have hh24 : h < 24 := List.mem_range.mp hmem
  have hutc : (evaluateUser tzSem currentHour u).utcHour = h := hconv
  have hana : (evaluateUser tzSem currentHour u).analysisHour =
      ((h : Int) - 1 + 24) % 24 := by
    rw [← hutc]; rfl
  have he2 : (evaluateUser tzSem currentHour u).utcHour = currentHour := by
    have := of_decide_eq_true hedue
    exact this
  have ha2 : (evaluateUser tzSem currentHour u).analysisHour = (currentHour : Int) := by
    have := of_decide_eq_true hadue
    exact this
  rw [hutc] at he2
  rw [hana, ← he2] at ha2
  omega

/-- Witness for `scheduler_due_sets_disjoint`: the UTC+0 semantics resolves
the default preference non-degradedly, and the user list consisting of that
single user is in neither both sets. -/
theorem scheduler_due_sets_disjoint_witness :
    ¬((⟨none, none⟩ : UserRec) ∈ (dueSets tzUTCSem 5 [⟨none, none⟩]).1 ∧
      (⟨none, none⟩ : UserRec) ∈ (dueSets tzUTCSem 5 [⟨none, none⟩]).2) :=
  scheduler_due_sets_disjoint tzUTCSem 5 [⟨none, none⟩] ⟨none, none⟩ (by decide) (by decide)

/-- C9 (exhibit of the divergence): the scheduler resolves an explicitly
stored midnight preference `email_time_hour = 0` to the default hour 9,
because `user.email_time_hour || 9` treats the falsy `0` as absent: under the
UTC semantics such a user is email-due at the 9:00 UTC tick and not at the
0:00 UTC tick, and `resolveLocalHour` sends both `some 0` and `none` to 9. -/
theorem scheduler_midnight_pref_defaults :
    resolveLocalHour (some 0) = 9 ∧ resolveLocalHour none = 9 ∧
    (evaluateUser tzUTCSem 9 ⟨none, some 0⟩).emailDue = true ∧
    (evaluateUser tzUTCSem 0 ⟨none, some 0⟩).emailDue = false := by
  refine ⟨rfl, rfl, by decide, by decide⟩

/-- C10: the two pinned list-renderer outputs: an itemized string renders as
an unordered list, and the empty string renders as the lower-cased
placeholder paragraph. -/
theorem createListHtml_pinned_examples :
    createListHtml (JVal.str (S "- a\\n- b")) (S "X") = S "<ul><li>a</li><li>b</li></ul>" ∧
    createListHtml (JVal.str []) (S "X") = S "<p>No x provided.</p>" := by
  constructor
  · decide
  · decide

/-- A nonempty document whose only present key is a sample script that
renders to a suppressed fragment (it contains the keyword `not specified`). -/
def docOnlyScriptX : StrategyDoc :=
  { emptyDoc with sampleScript := some (JVal.str (S "x")) }

/-- Counterexample to C6: `docOnlyScriptX` is nonempty and none of its
sections survives suppression, yet the assembler output differs from the
empty-document output — the all-suppressed fragment carries the extra words
`at this time`. -/
theorem assembler_degenerate_frags_differ :
    (assembleFold jpNone docOnlyScriptX).2 = false ∧
    formatMarketingStrategyToHtml jpNone docOnlyScriptX ≠
      formatMarketingStrategyToHtml jpNone emptyDoc := by
  constructor
  · decide
  · decide

/-- C6 as amended: both degenerate cases return a fixed fragment under the
title heading, but the two fragments differ: the empty document yields
`No detailed strategy information available.` while a nonempty document none
of whose sections survived suppression yields
`No detailed strategy information available at this time.`. -/
theorem assembler_degenerate_frags (jp : Str → Option JVal) (d : StrategyDoc)
    (hne : docIsEmpty d = false) (hsup : (assembleFold jp d).2 = false) :
    formatMarketingStrategyToHtml jp emptyDoc = noStrategyFrag ∧
    formatMarketingStrategyToHtml jp d = noStrategyFrag2 := by
  constructor
  · rfl
  · simp only [formatMarketingStrategyToHtml, hne, hsup]
    rfl

/-- Witness for `assembler_degenerate_frags` at the all-suppressed document
`docOnlyScriptX`. -/
theorem assembler_degenerate_frags_witness :
    formatMarketingStrategyToHtml jpNone emptyDoc = noStrategyFrag ∧
    formatMarketingStrategyToHtml jpNone docOnlyScriptX = noStrategyFrag2 :=
  assembler_degenerate_frags jpNone docOnlyScriptX (by decide) (by decide)

/-- Counterexample to C8: a present-but-blank field is not equivalent to an
absent one — a blank `observations` string is truthy, renders to the
`No observations provided.` paragraph, which contains none of the three
suppression keywords and therefore survives as a visible section. -/
theorem assembler_blank_field_differs :
    formatMarketingStrategyToHtml jpNone
        (setKey emptyDoc SectionKey.observations (some (JVal.str (S " ")))) ≠
      formatMarketingStrategyToHtml jpNone emptyDoc := by
  decide

theorem format_congr (jp : Str → Option JVal) (d1 d2 : StrategyDoc)
    (he : docIsEmpty d1 = docIsEmpty d2)
    (hs : ∀ k, sectionContent d1 k = sectionContent d2 k)
    (ht : trailerHtml d1 = trailerHtml d2) :
    formatMarketingStrategyToHtml jp d1 = formatMarketingStrategyToHtml jp d2 := by
  have hstep : assembleStep d1 = assembleStep d2 := by
    funext acc sec
    simp only [assembleStep, hs]
  simp only [formatMarketingStrategyToHtml, assembleFold, hstep, he, ht]

theorem docIsEmpty_setKey_some (d : StrategyDoc) (k : SectionKey) (x : JVal) :
    docIsEmpty (setKey d k (some x)) = false := by
  cases k <;> simp [docIsEmpty, setKey]

theorem sectionContent_setKey_emptystr (d : StrategyDoc) (k : SectionKey) :
    ∀ κ : SectionKey, sectionContent (setKey d k (some (JVal.str []))) κ =
      sectionContent (setKey d k none) κ := by
  intro κ
  cases k <;> cases κ <;> rfl

theorem trailerHtml_setKey_emptystr (d : StrategyDoc) (k : SectionKey) :
    trailerHtml (setKey d k (some (JVal.str []))) = trailerHtml (setKey d k none) := by
  cases k <;> rfl

/-- C8 as amended: for a document that remains nonempty with the field
absent, assembling with the field present as the empty string gives exactly
the assembly with the field absent (the empty string is falsy, so content
resolution cannot distinguish the two); a present-but-blank (whitespace)
field, however, is rendered, and on an otherwise empty document a
present-but-empty field selects the `at this time` fragment instead of the
empty-document fragment. -/
theorem assembler_empty_field_equals_absent (jp : Str → Option JVal) (d : StrategyDoc)
    (k : SectionKey) (hne : docIsEmpty (setKey d k none) = false) :
    formatMarketingStrategyToHtml jp (setKey d k (some (JVal.str []))) =
      formatMarketingStrategyToHtml jp (setKey d k none) := by
  apply format_congr
  · rw [docIsEmpty_setKey_some, hne]
  · exact sectionContent_setKey_emptystr d k
  · exact trailerHtml_setKey_emptystr d k

/-- Witness for `assembler_empty_field_equals_absent`: a document holding a
key-takeaways list, with the observations field present-but-empty versus
absent. -/
theorem assembler_empty_field_equals_absent_witness :
    formatMarketingStrategyToHtml jpNone
        (setKey { emptyDoc with keyTakeaways := some (JVal.str (S "- a\\n- b")) }
          SectionKey.observations (some (JVal.str []))) =
      formatMarketingStrategyToHtml jpNone
        (setKey { emptyDoc with keyTakeaways := some (JVal.str (S "- a\\n- b")) }
          SectionKey.observations none) :=
  assembler_empty_field_equals_absent jpNone
    { emptyDoc with keyTakeaways := some (JVal.str (S "- a\\n- b")) }
    SectionKey.observations (by decide)

theorem append_ne_nil {a : Str} (ha : a ≠ []) (b : Str) : a ++ b ≠ [] := by
  cases a with
  | nil => exact absurd rfl ha
  | cons c cs => simp

theorem leadsWith_refl (p : Str) : leadsWith p p = true := by
  induction p with
  | nil => rfl
  | cons c cs ih => simp [leadsWith, ih]

theorem leadsWith_nil_right {p : Str} (h : leadsWith p [] = true) : p = [] := by
  cases p with
  | nil => rfl
  | cons c cs => simp [leadsWith] at h

theorem leadsWith_append_left {p s : Str} (x : Str) (h : leadsWith p s = true) :
    leadsWith p (s ++ x) = true := by
  induction p generalizing s with
  | nil => rfl
  | cons c cs ih =>
    cases s with
    | nil => exact absurd h (by simp [leadsWith])
    | cons a rest =>
      simp only [leadsWith, Bool.and_eq_true] at h
      simp only [List.cons_append, leadsWith, Bool.and_eq_true]
      exact ⟨h.1, ih h.2⟩

theorem hasSub_of_left {s pat : Str} (x : Str) (h : hasSub s pat = true) :
    hasSub (s ++ x) pat = true := by
  induction s with
  | nil =>
    have hp : pat = [] := leadsWith_nil_right h
    subst hp
    cases x with
    | nil => rfl
    | cons c cs => simp [hasSub, leadsWith]
  | cons c cs ih =>
    simp only [hasSub, Bool.or_eq_true] at h
    rcases h with h | h
    · simp only [List.cons_append, hasSub, Bool.or_eq_true]
      exact Or.inl (leadsWith_append_left x h)
    · simp only [List.cons_append, hasSub, Bool.or_eq_true]
      exact Or.inr (ih h)

theorem hasSub_of_right {pat : Str} (a : Str) {b : Str} (h : hasSub b pat = true) :
    hasSub (a ++ b) pat = true := by
  induction a with
  | nil => exact h
  | cons c cs ih =>
    simp only [List.cons_append, hasSub, Bool.or_eq_true]
    exact Or.inr ih

theorem hasSub_self (p : Str) : hasSub p p = true := by
  cases p with
  | nil => rfl
  | cons c cs => simp [hasSub, leadsWith_refl]

theorem hasSub_ne_nil {s pat : Str} (hpat : pat ≠ []) (h : hasSub s pat = true) : s ≠ [] := by
  intro hs
  subst hs
  exact hpat (leadsWith_nil_right h)

theorem splitOnStr_no_match {sep : Str} :
    ∀ s : Str, hasSub s sep = false → splitOnStr sep s = [s] := by
  intro s
  induction s with
  | nil => intro _; rfl
  | cons c cs ih =>
    intro h
    simp only [hasSub, Bool.or_eq_false_iff] at h
    rw [splitOnStr_cons]
    have hcond : ¬(sep ≠ [] ∧ leadsWith sep (c :: cs) = true) := by
      rintro ⟨_, hl⟩
      rw [h.1] at hl
      exact Bool.false_ne_true hl
    rw [if_neg hcond, ih h.2]

theorem replaceAll_id_of_head_notin {p0 : Char} {ps rep : Str} :
    ∀ s : Str, (∀ c ∈ s, c ≠ p0) → replaceAll (p0 :: ps) rep s = s := by
  intro s
  induction s with
  | nil => intro _; rfl
  | cons c cs ih =>
    intro h
    rw [replaceAll_cons]
    have hlw : leadsWith (p0 :: ps) (c :: cs) = false := by
      simp only [leadsWith, Bool.and_eq_false_iff]
      left
      exact decide_eq_false (fun he => h c (by simp) he.symm)
    rw [if_neg (by rintro ⟨_, hl⟩; rw [hlw] at hl; exact Bool.false_ne_true hl)]
    rw [ih (fun x hx => h x (by simp [hx]))]

theorem jsIsSpace_ne_backslash {c : Char} (h : jsIsSpace c = true) : c ≠ '\\' := by
  intro he
  subst he
  exact absurd h (by decide)

theorem jsIsSpace_ne_star {c : Char} (h : jsIsSpace c = true) : c ≠ '*' := by
  intro he
  subst he
  exact absurd h (by decide)

theorem jsTrim_of_dropWhile_nil {s : Str} (h : s.dropWhile jsIsSpace = []) : jsTrim s = [] := by
  simp [jsTrim, h]

theorem hasSub_false_of_head_notin {p0 : Char} {ps : Str} :
    ∀ s : Str, (∀ c ∈ s, c ≠ p0) → hasSub s (p0 :: ps) = false := by
  intro s
  induction s with
  | nil => intro _; rfl
  | cons c cs ih =>
    intro h
    simp only [hasSub, Bool.or_eq_false_iff]
    constructor
    · simp only [leadsWith, Bool.and_eq_false_iff]
      left
      exact decide_eq_false (fun he => h c (by simp) he.symm)
    · exact ih (fun x hx => h x (by simp [hx]))

theorem listPlaceholder_ne_nil (t : Str) : listPlaceholder t ≠ [] := by
  simp only [listPlaceholder]
  exact append_ne_nil (append_ne_nil (by decide) _) _

theorem createListHtml_ne_nil (v : JVal) (t : Str) : createListHtml v t ≠ [] := by
  cases v with
  | str s =>
    simp only [createListHtml]
    by_cases hb : jsTrim s = []
    · rw [if_pos hb]
      exact listPlaceholder_ne_nil t
    · rw [if_neg hb]
      split
      · exact append_ne_nil (append_ne_nil (by decide) _) _
      · exact append_ne_nil (append_ne_nil (by decide) _) _
  | arr l => exact listPlaceholder_ne_nil t
  | other b => exact listPlaceholder_ne_nil t

theorem formatSampleScriptHtml_ne_nil (v : JVal) : formatSampleScriptHtml v ≠ [] := by
  cases v with
  | str s =>
    simp only [formatSampleScriptHtml]
    by_cases hb : jsTrim s = []
    · rw [if_pos hb]
      decide
    · rw [if_neg hb]
      apply append_ne_nil
      split
      · split
        · exact append_ne_nil (append_ne_nil (by decide) _) _
        · decide
      · decide
  | arr l => exact (by decide : S "<p>No sample script provided.</p>" ≠ [])
  | other b => exact (by decide : S "<p>No sample script provided.</p>" ≠ [])

theorem formatContentThemesHtml_ne_nil (jp : Str → Option JVal) (v : JVal) :
    formatContentThemesHtml jp v ≠ [] := by
  simp only [formatContentThemesHtml]
  split
  · decide
  · split
    · decide
    · split
      · exact append_ne_nil (append_ne_nil (by decide) _) _
      · decide

theorem flushSection_found {st : HState}
    (hP : st.foundContent = true → hasSub st.html (S "<h4>") = true)
    (h : (flushSection st).2 = true) : hasSub (flushSection st).1 (S "<h4>") = true := by
  cases hct : st.currentTitle with
  | none =>
    simp only [flushSection, hct] at h ⊢
    exact hP h
  | some t =>
    by_cases hl : 0 < st.currentTags.length
    · simp only [flushSection, hct, if_pos hl] at h ⊢
      apply hasSub_of_left
      apply hasSub_of_left
      apply hasSub_of_left
      apply hasSub_of_left
      exact hasSub_of_right _ (hasSub_self _)
    · simp only [flushSection, hct, if_neg hl] at h ⊢
      apply hasSub_of_left
      apply hasSub_of_left
      exact hasSub_of_right _ (hasSub_self _)

theorem hashStep_preserves {st : HState} (line : Str)
    (hP : st.foundContent = true → hasSub st.html (S "<h4>") = true) :
    (hashStep st line).foundContent = true →
      hasSub (hashStep st line).html (S "<h4>") = true := by
  intro h
  cases hfind : List.find? (fun t => leadsWith t (jsTrim line)) hashLabels with
  | some title =>
    simp only [hashStep, hfind] at h ⊢
    exact flushSection_found hP h
  | none =>
    simp only [hashStep, hfind, apply_ite HState.foundContent, apply_ite HState.html,
      ite_self] at h ⊢
    exact hP h

theorem foldl_hashStep_preserves (lines : List Str) :
    ∀ st : HState, (st.foundContent = true → hasSub st.html (S "<h4>") = true) →
      ((lines.foldl hashStep st).foundContent = true →
        hasSub (lines.foldl hashStep st).html (S "<h4>") = true) := by
  induction lines with
  | nil =>
    intro st hP
    exact hP
  | cons l rest ih =>
    intro st hP
    exact ih _ (hashStep_preserves l hP)

theorem formatHashtagStrategyHtml_ne_nil (v : JVal) : formatHashtagStrategyHtml v ≠ [] := by
  cases v with
  | str s =>
    simp only [formatHashtagStrategyHtml]
    by_cases hb : jsTrim s = []
    · rw [if_pos hb]
      decide
    · rw [if_neg hb]
      split
      · rename_i hcond
        simp only [Bool.or_eq_true] at hcond
        rcases hcond with hfound | hsub
        · have hinv := foldl_hashStep_preserves
            (splitOnStr (S "\\n") (replaceAll (S "**") [] s))
            ⟨[], none, [], false⟩ (fun h => absurd h (by decide))
          have := flushSection_found hinv hfound
          exact hasSub_ne_nil (by decide) this
        · exact hasSub_ne_nil (by decide) hsub
      · decide
  | arr l => exact (by decide : S "<p>No hashtag strategy provided.</p>" ≠ [])
  | other b => exact (by decide : S "<p>No hashtag strategy provided.</p>" ≠ [])

theorem formatContentThemesHtml_blank (jp : Str → Option JVal) (s : Str)
    (hws : ∀ c ∈ s, jsIsSpace c = true) (hjp : jp s = none) :
    formatContentThemesHtml jp (JVal.str s) = S "<p>No specific themes provided.</p>" := by
  have hdw : s.dropWhile jsIsSpace = [] := List.dropWhile_eq_nil_iff.mpr hws
  have hsep : hasSub s (S "\\n- ") = false := by
    have he : S "\\n- " = '\\' :: S "n- " := rfl
    rw [he]
    exact hasSub_false_of_head_notin s (fun c hc => jsIsSpace_ne_backslash (hws c hc))
  have hsplit : splitOnStr (S "\\n- ") s = [s] := splitOnStr_no_match s hsep
  have hclean : cleanThemeFallback s = [] := by
    simp only [cleanThemeFallback, hdw]
    have hra : replaceAll (S "**") [] s = s := by
      have h2 : S "**" = '*' :: S "*" := rfl
      rw [h2]
      exact replaceAll_id_of_head_notin s (fun c hc => jsIsSpace_ne_star (hws c hc))
    rw [hra]
    exact jsTrim_of_dropWhile_nil hdw
  simp only [formatContentThemesHtml, hjp, hsplit, List.map_cons, List.map_nil, hclean]
  simp [List.filter]

/-- C5: each of the four renderers is a total function returning a non-empty
HTML fragment for every input value (string, array, or any other value), and
empty, blank, or non-string (for the themes renderer: unparseable blank)
input yields the documented placeholder fragment of that renderer. -/
theorem renderers_total_and_placeholders (jp : Str → Option JVal) :
    (∀ v t, createListHtml v t ≠ []) ∧
    (∀ v, formatSampleScriptHtml v ≠ []) ∧
    (∀ v, formatContentThemesHtml jp v ≠ []) ∧
    (∀ v, formatHashtagStrategyHtml v ≠ []) ∧
    (∀ t s, jsTrim s = [] → createListHtml (JVal.str s) t = listPlaceholder t) ∧
    (∀ t b, createListHtml (JVal.other b) t = listPlaceholder t) ∧
    (∀ t l, createListHtml (JVal.arr l) t = listPlaceholder t) ∧
    (∀ s, jsTrim s = [] →
      formatSampleScriptHtml (JVal.str s) = S "<p>No sample script provided.</p>") ∧
    (∀ b, formatSampleScriptHtml (JVal.other b) = S "<p>No sample script provided.</p>") ∧
    (∀ l, formatSampleScriptHtml (JVal.arr l) = S "<p>No sample script provided.</p>") ∧
    (∀ s, (∀ c ∈ s, jsIsSpace c = true) → jp s = none →
      formatContentThemesHtml jp (JVal.str s) = S "<p>No specific themes provided.</p>") ∧
    (∀ b, formatContentThemesHtml jp (JVal.other b) = S "<p>No specific themes provided.</p>") ∧
    (formatContentThemesHtml jp (JVal.arr []) = S "<p>No specific themes provided.</p>") ∧
    (∀ s, jsTrim s = [] →
      formatHashtagStrategyHtml (JVal.str s) = S "<p>No hashtag strategy provided.</p>") ∧
    (∀ b, formatHashtagStrategyHtml (JVal.other b) = S "<p>No hashtag strategy provided.</p>") ∧
    (∀ l, formatHashtagStrategyHtml (JVal.arr l) = S "<p>No hashtag strategy provided.</p>") := by
  refine ⟨fun v t => createListHtml_ne_nil v t,
    fun v => formatSampleScriptHtml_ne_nil v,
    fun v => formatContentThemesHtml_ne_nil jp v,
    fun v => formatHashtagStrategyHtml_ne_nil v,
    ?_, fun t b => rfl, fun t l => rfl,
    ?_, fun b => rfl, fun l => rfl,
    fun s hws hjp => formatContentThemesHtml_blank jp s hws hjp,
    fun b => rfl, rfl,
    ?_, fun b => rfl, fun l => rfl⟩
  · intro t s h
    simp [createListHtml, h]
  · intro s h
    simp [formatSampleScriptHtml, h]
  · intro s h
    simp [formatHashtagStrategyHtml, h]

/-- Witness for `renderers_total_and_placeholders` at concrete degenerate
inputs: a blank themes string (with the throwing `JSON.parse` model), a blank
list-renderer string, and the empty hashtag string. -/
theorem renderers_total_and_placeholders_witness :
    formatContentThemesHtml jpNone (JVal.str (S " ")) =
        S "<p>No specific themes provided.</p>" ∧
    createListHtml (JVal.str (S " ")) (S "X") = listPlaceholder (S "X") ∧
    formatHashtagStrategyHtml (JVal.str []) = S "<p>No hashtag strategy provided.</p>" := by
  have h := renderers_total_and_placeholders jpNone
  refine ⟨h.2.2.2.2.2.2.2.2.2.2.1 (S " ") (by decide) rfl, ?_, ?_⟩
  · exact h.2.2.2.2.1 (S "X") (S " ") (by decide)
  · exact h.2.2.2.2.2.2.2.2.2.2.2.2.2.1 [] (by decide)

/-- No occurrence of `pat` anywhere in `s`. -/
def noOccur (pat s : Str) : Prop := ∀ i : Nat, leadsWith pat (s.drop i) = false

theorem noOccur_of_hasSub_false {pat : Str} :
    ∀ s : Str, hasSub s pat = false → noOccur pat s := by
  intro s
  induction s with
  | nil =>
    intro h i
    simp only [List.drop_nil]
    exact h
  | cons c cs ih =>
    intro h i
    simp only [hasSub, Bool.or_eq_false_iff] at h
    cases i with
    | zero => exact h.1
    | succ i => exact ih h.2 i

theorem hasSub_false_of_noOccur {pat : Str} :
    ∀ s : Str, noOccur pat s → hasSub s pat = false := by
  intro s
  induction s with
  | nil =>
    intro h
    exact h 0
  | cons c cs ih =>
    intro h
    simp only [hasSub, Bool.or_eq_false_iff]
    exact ⟨h 0, ih (fun i => h (i + 1))⟩

theorem noOccur_cons_intro {pat : Str} {c : Char} {s : Str}
    (h0 : leadsWith pat (c :: s) = false) (h : noOccur pat s) : noOccur pat (c :: s) := by
  intro i
  cases i with
  | zero => exact h0
  | succ i => exact h i

theorem leadsWith_append_elim_left {pat x : Str} (y : Str) (h : leadsWith pat (x ++ y) = true)
    (hlen : pat.length ≤ x.length) : leadsWith pat x = true := by
  induction pat generalizing x with
  | nil => rfl
  | cons p ps ih =>
    cases x with
    | nil => simp at hlen
    | cons a xs =>
      simp only [List.cons_append, leadsWith, Bool.and_eq_true] at h
      simp only [leadsWith, Bool.and_eq_true]
      simp only [List.length_cons] at hlen
      exact ⟨h.1, ih h.2 (by omega)⟩

theorem leadsWith_append_split {pat : Str} :
    ∀ x : Str, ∀ y : Str, leadsWith pat (x ++ y) = true → x.length < pat.length →
      leadsWith (pat.drop x.length) y = true := by
  intro x
  induction x generalizing pat with
  | nil =>
    intro y h _
    exact h
  | cons a xs ih =>
    intro y h hlen
    cases pat with
    | nil => simp at hlen
    | cons p ps =>
      simp only [List.cons_append, leadsWith, Bool.and_eq_true] at h
      simp only [List.length_cons, List.drop_succ_cons]
      simp only [List.length_cons] at hlen
      exact ih y h.2 (by omega)

theorem leadsWith_prefix_of {x y s : Str} (h : leadsWith (x ++ y) s = true) :
    leadsWith x s = true := by
  induction x generalizing s with
  | nil => rfl
  | cons a xs ih =>
    cases s with
    | nil => simp [leadsWith] at h
    | cons c cs =>
      simp only [List.cons_append, leadsWith, Bool.and_eq_true] at h
      simp only [leadsWith, Bool.and_eq_true]
      exact ⟨h.1, ih h.2⟩

theorem leadsWith_drop_of {x y s : Str} (h : leadsWith (x ++ y) s = true) :
    leadsWith y (s.drop x.length) = true := by
  induction x generalizing s with
  | nil => exact h
  | cons a xs ih =>
    cases s with
    | nil => simp [leadsWith] at h
    | cons c cs =>
      simp only [List.cons_append, leadsWith, Bool.and_eq_true] at h
      simp only [List.length_cons, List.drop_succ_cons]
      exact ih h.2

theorem drop_append_ge (A B : Str) (i : Nat) (h : A.length ≤ i) :
    (A ++ B).drop i = B.drop (i - A.length) := by
  induction A generalizing i with
  | nil => simp
  | cons c cs ih =>
    cases i with
    | zero => simp at h
    | succ i =>
      simp only [List.cons_append, List.drop_succ_cons, List.length_cons]
      simp only [List.length_cons] at h
      rw [ih i (by omega)]
      congr 1
      omega

theorem noOccur_append {pat A B : Str} (hA : noOccur pat A) (hB : noOccur pat B)
    (hstrad : ∀ m, 0 < m → m < pat.length → leadsWith (pat.drop m) B = false) :
    noOccur pat (A ++ B) := by
  intro i
  by_cases hge : A.length ≤ i
  · rw [drop_append_ge A B i hge]
    exact hB (i - A.length)
  · push_neg at hge
    rw [List.drop_append_of_le_length (by omega)]
    cases hlw : leadsWith pat (A.drop i ++ B) with
    | false => rfl
    | true =>
      exfalso
      by_cases hfit : pat.length ≤ (A.drop i).length
      · have := leadsWith_append_elim_left B hlw hfit
        rw [hA i] at this
        exact Bool.false_ne_true this
      · push_neg at hfit
        have hpos : 0 < (A.drop i).length := by
          simp only [List.length_drop]
          omega
        have := leadsWith_append_split (A.drop i) B hlw hfit
        rw [hstrad (A.drop i).length hpos hfit] at this
        exact Bool.false_ne_true this

theorem noOccur_of_infix {sub big s : Str} (u w : Str) (hbig : big = u ++ (sub ++ w))
    (h : noOccur sub s) : noOccur big s := by
  intro i
  cases hlw : leadsWith big (s.drop i) with
  | false => rfl
  | true =>
    exfalso
    rw [hbig] at hlw
    have h1 := leadsWith_drop_of hlw
    have h2 := leadsWith_prefix_of h1
    rw [List.drop_drop] at h2
    rw [h (i + u.length)] at h2
    exact Bool.false_ne_true h2

theorem replaceAll_id_of_noOccur {pat rep : Str} :
    ∀ s : Str, noOccur pat s → replaceAll pat rep s = s := by
  intro s
  induction s with
  | nil => intro _; rfl
  | cons c cs ih =>
    intro h
    rw [replaceAll_cons]
    have h0 : leadsWith pat (c :: cs) = false := h 0
    rw [if_neg (by rintro ⟨_, hl⟩; rw [h0] at hl; exact Bool.false_ne_true hl)]
    rw [ih (fun i => h (i + 1))]

theorem replaceAll_append_protected (pat rep : Str) (hp : pat ≠ [])
    (Q : Str) (hQ : noOccur pat Q)
    (hstrad : ∀ m, 0 < m → m < pat.length → leadsWith (pat.drop m) Q = false) :
    ∀ a : Str, replaceAll pat rep (a ++ Q) = replaceAll pat rep a ++ Q := by
  have main : ∀ n : Nat, ∀ a : Str, a.length ≤ n →
      replaceAll pat rep (a ++ Q) = replaceAll pat rep a ++ Q := by
    intro n
    induction n with
    | zero =>
      intro a ha
      have hnil : a = [] := List.length_eq_zero.mp (Nat.le_zero.mp ha)
      subst hnil
      simp only [List.nil_append]
      rw [replaceAll_id_of_noOccur Q hQ]
      rfl
    | succ n ih =>
      intro a ha
      cases a with
      | nil =>
        simp only [List.nil_append]
        rw [replaceAll_id_of_noOccur Q hQ]
        rfl
      | cons c cs =>
        by_cases hlw : leadsWith pat ((c :: cs) ++ Q) = true
        · have hfit : pat.length ≤ (c :: cs).length := by
            by_contra hbig
            push_neg at hbig
            have hsp := leadsWith_append_split (c :: cs) Q hlw hbig
            rw [hstrad (c :: cs).length (by simp) hbig] at hsp
            exact Bool.false_ne_true hsp
          have hlw2 : leadsWith pat (c :: cs) = true :=
            leadsWith_append_elim_left Q hlw hfit
          have hL : replaceAll pat rep ((c :: cs) ++ Q) =
              rep ++ replaceAll pat rep (((c :: cs).drop pat.length) ++ Q) := by
            rw [List.cons_append, replaceAll_cons,
              if_pos ⟨hp, by rw [← List.cons_append]; exact hlw⟩]
            rw [← List.cons_append, List.drop_append_of_le_length hfit]
          have hR : replaceAll pat rep (c :: cs) =
              rep ++ replaceAll pat rep ((c :: cs).drop pat.length) := by
            rw [replaceAll_cons, if_pos ⟨hp, hlw2⟩]
          rw [hL, hR]
          rw [ih ((c :: cs).drop pat.length) (by
            simp only [List.length_drop, List.length_cons]
            simp only [List.length_cons] at ha
            have hppos : 0 < pat.length := List.length_pos.mpr hp
            omega)]
          simp [List.append_assoc]
        · have hlw2 : leadsWith pat (c :: cs) = false := by
            cases hx : leadsWith pat (c :: cs) with
            | false => rfl
            | true => exact absurd (leadsWith_append_left Q hx) hlw
          have hlwf : leadsWith pat ((c :: cs) ++ Q) = false := by
            cases hx : leadsWith pat ((c :: cs) ++ Q) with
            | false => rfl
            | true => exact absurd hx hlw
          rw [List.cons_append, replaceAll_cons,
            if_neg (by
              rintro ⟨_, hl⟩
              rw [← List.cons_append] at hl
              rw [hlwf] at hl
              exact Bool.false_ne_true hl)]
          rw [replaceAll_cons, if_neg (by
            rintro ⟨_, hl⟩
            rw [hlw2] at hl
            exact Bool.false_ne_true hl)]
          rw [ih cs (by
            simp only [List.length_cons] at ha
            omega)]
          rfl
  intro a
  exact main a.length a (Nat.le_refl _)

theorem takeWs_append_le (Q : Str) (hws : ∀ c, Q.head? = some c → jsIsSpace c = false) :
    ∀ b : Str, takeWs (b ++ Q) ≤ b.length := by
  intro b
  induction b with
  | nil =>
    simp only [List.nil_append]
    cases Q with
    | nil => simp [takeWs]
    | cons q qs =>
      have hq := hws q rfl
      simp [takeWs, List.takeWhile_cons, hq]
  | cons c b' ih =>
    simp only [List.cons_append, takeWs, List.takeWhile_cons]
    by_cases hc : jsIsSpace c = true
    · simp only [hc, if_pos]
      simp only [List.length_cons]
      have : takeWs (b' ++ Q) ≤ b'.length := ih
      simp only [takeWs] at this
      omega
    · simp only [hc]
      simp

theorem countBr_append_le (Q : Str) (hQ : noOccur (S "<br>") Q)
    (hstrad : ∀ m, 0 < m → m < 4 → leadsWith ((S "<br>").drop m) Q = false)
    (hws : ∀ c, Q.head? = some c → jsIsSpace c = false) :
    ∀ n : Nat, ∀ a : Str, a.length ≤ n → (countBr (a ++ Q)).2 ≤ a.length := by
  intro n
  induction n with
  | zero =>
    intro a ha
    have hnil : a = [] := List.length_eq_zero.mp (Nat.le_zero.mp ha)
    subst hnil
    simp only [List.nil_append]
    have h0 : leadsWith (S "<br>") Q = false := by
      have := hQ 0
      rwa [List.drop_zero] at this
    rw [countBr_eq, if_neg (by rw [h0]; exact Bool.false_ne_true)]
    simp
  | succ n ih =>
    intro a ha
    by_cases hlw : leadsWith (S "<br>") (a ++ Q) = true
    · have hlen4 : 4 ≤ a.length := by
        by_contra hbig
        push_neg at hbig
        rcases Nat.eq_zero_or_pos a.length with h0 | hpos
        · have hnil : a = [] := List.length_eq_zero.mp h0
          subst hnil
          rw [List.nil_append] at hlw
          have := hQ 0
          rw [List.drop_zero] at this
          rw [this] at hlw
          exact Bool.false_ne_true hlw
        · have hsp := leadsWith_append_split a Q hlw (by
            have h4 : (S "<br>").length = 4 := rfl
            omega)
          rw [hstrad a.length hpos (by omega)] at hsp
          exact Bool.false_ne_true hsp
      rw [countBr_eq, if_pos hlw]
      simp only
      have hdrop4 : (a ++ Q).drop 4 = a.drop 4 ++ Q :=
        List.drop_append_of_le_length (by omega)
      have hwle : takeWs ((a ++ Q).drop 4) ≤ a.length - 4 := by
        rw [hdrop4]
        have := takeWs_append_le Q hws (a.drop 4)
        simpa [List.length_drop] using this
      have hdrop : (a ++ Q).drop (4 + takeWs ((a ++ Q).drop 4)) =
          a.drop (4 + takeWs ((a ++ Q).drop 4)) ++ Q :=
        List.drop_append_of_le_length (by omega)
      rw [hdrop]
      have hlen' : (a.drop (4 + takeWs ((a ++ Q).drop 4))).length ≤ n := by
        simp only [List.length_drop]
        omega
      have := ih (a.drop (4 + takeWs ((a ++ Q).drop 4))) hlen'
      simp only [List.length_drop] at this
      omega
    · rw [countBr_eq, if_neg hlw]
      simp

theorem collapseBr_id_of_noOccur : ∀ s : Str, noOccur (S "<br>") s → collapseBr s = s := by
  intro s
  induction s with
  | nil => intro _; rfl
  | cons c cs ih =>
    intro h
    have h0 : leadsWith (S "<br>") (c :: cs) = false := by
      have := h 0
      rwa [List.drop_zero] at this
    have hcb : countBr (c :: cs) = (0, 0) := by
      rw [countBr_eq, if_neg (by rw [h0]; exact Bool.false_ne_true)]
    rw [collapseBr_cons, hcb]
    rw [if_neg (by norm_num)]
    rw [ih (fun i => h (i + 1))]

theorem collapseBr_append (Q : Str) (hQ : noOccur (S "<br>") Q)
    (hstrad : ∀ m, 0 < m → m < 4 → leadsWith ((S "<br>").drop m) Q = false)
    (hws : ∀ c, Q.head? = some c → jsIsSpace c = false) :
    ∀ a : Str, ∃ pre : Str, collapseBr (a ++ Q) = pre ++ Q := by
  have main : ∀ n : Nat, ∀ a : Str, a.length ≤ n →
      ∃ pre : Str, collapseBr (a ++ Q) = pre ++ Q := by
    intro n
    induction n with
    | zero =>
      intro a ha
      have hnil : a = [] := List.length_eq_zero.mp (Nat.le_zero.mp ha)
      subst hnil
      exact ⟨[], by simp [collapseBr_id_of_noOccur Q hQ]⟩
    | succ n ih =>
      intro a ha
      cases a with
      | nil => exact ⟨[], by simp [collapseBr_id_of_noOccur Q hQ]⟩
      | cons c cs =>
        rw [List.cons_append, collapseBr_cons]
        by_cases hb : 2 ≤ (countBr (c :: (cs ++ Q))).1
        · rw [if_pos hb]
          have hle : (countBr (c :: (cs ++ Q))).2 ≤ (c :: cs).length := by
            have hcb := countBr_append_le Q hQ hstrad hws (c :: cs).length (c :: cs)
              (Nat.le_refl _)
            rw [List.cons_append] at hcb
            exact hcb
          have hdr : (c :: (cs ++ Q)).drop (countBr (c :: (cs ++ Q))).2 =
              ((c :: cs).drop (countBr (c :: (cs ++ Q))).2) ++ Q := by
            rw [← List.cons_append]
            exact List.drop_append_of_le_length hle
          rw [hdr]
          have hpos : 1 ≤ (countBr (c :: (cs ++ Q))).2 := countBr_consumed_pos _ hb
          obtain ⟨pre, hpre⟩ := ih ((c :: cs).drop (countBr (c :: (cs ++ Q))).2) (by
            simp only [List.length_drop, List.length_cons]
            simp only [List.length_cons] at ha
            omega)
          exact ⟨S "<br>" ++ pre, by rw [hpre]; simp [List.append_assoc]⟩
        · rw [if_neg hb]
          obtain ⟨pre, hpre⟩ := ih cs (by
            simp only [List.length_cons] at ha
            omega)
          exact ⟨c :: pre, by rw [hpre]; simp⟩
  intro a
  exact main a.length a (Nat.le_refl _)

theorem cleanupPass_suffix (T : Str)
    (hTnl : hasSub T (S "\\n") = false) (hTbr : hasSub T (S "<br>") = false) :
    ∀ a : Str, ∃ pre : Str,
      cleanupPass (a ++ (S "<p>" ++ T ++ S "</p>")) = pre ++ (S "<p>" ++ T ++ S "</p>") := by
  intro a
  have hnlT : noOccur (S "\\n") T := noOccur_of_hasSub_false T hTnl
  have hbrT : noOccur (S "<br>") T := noOccur_of_hasSub_false T hTbr
  have hnlP : noOccur (S "\\n") (S "</p>") := noOccur_of_hasSub_false _ (by decide)
  have hbrP : noOccur (S "<br>") (S "</p>") := noOccur_of_hasSub_false _ (by decide)
  have hnlTP : noOccur (S "\\n") (T ++ S "</p>") := by
    apply noOccur_append hnlT hnlP
    intro m h1 h2
    have h2' : m < 2 := by
      have hl : (S "\\n").length = 2 := rfl
      omega
    interval_cases m
    · decide
  have hbrTP : noOccur (S "<br>") (T ++ S "</p>") := by
    apply noOccur_append hbrT hbrP
    intro m h1 h2
    have h2' : m < 4 := by
      have hl : (S "<br>").length = 4 := rfl
      omega
    interval_cases m <;> decide
  have hQnl : noOccur (S "\\n") (S "<p>" ++ T ++ S "</p>") := by
    show noOccur (S "\\n") ('<' :: 'p' :: '>' :: (T ++ S "</p>"))
    exact noOccur_cons_intro rfl (noOccur_cons_intro rfl (noOccur_cons_intro rfl hnlTP))
  have hQbr : noOccur (S "<br>") (S "<p>" ++ T ++ S "</p>") := by
    show noOccur (S "<br>") ('<' :: 'p' :: '>' :: (T ++ S "</p>"))
    exact noOccur_cons_intro rfl (noOccur_cons_intro rfl (noOccur_cons_intro rfl hbrTP))
  have hQpbr : noOccur (S "<p><br></p>") (S "<p>" ++ T ++ S "</p>") :=
    noOccur_of_infix (S "<p>") (S "</p>") rfl hQbr
  have hstr_nl : ∀ m, 0 < m → m < (S "\\n").length →
      leadsWith ((S "\\n").drop m) (S "<p>" ++ T ++ S "</p>") = false := by
    intro m h1 h2
    have h2' : m < 2 := by
      have hl : (S "\\n").length = 2 := rfl
      omega
    interval_cases m
    · rfl
  have hstr_br : ∀ m, 0 < m → m < 4 →
      leadsWith ((S "<br>").drop m) (S "<p>" ++ T ++ S "</p>") = false := by
    intro m h1 h2
    interval_cases m <;> rfl
  have hstr_pbr : ∀ m, 0 < m → m < (S "<p><br></p>").length →
      leadsWith ((S "<p><br></p>").drop m) (S "<p>" ++ T ++ S "</p>") = false := by
    intro m h1 h2
    have h2' : m < 11 := by
      have hl : (S "<p><br></p>").length = 11 := rfl
      omega
    interval_cases m <;> rfl
  have hws : ∀ c, (S "<p>" ++ T ++ S "</p>").head? = some c → jsIsSpace c = false := by
    intro c hc
    have hh : (S "<p>" ++ T ++ S "</p>").head? = some '<' := rfl
    rw [hh] at hc
    injection hc with hc
    subst hc
    decide
  have step1 := replaceAll_append_protected (S "\\n") (S "<br>") (by decide)
    (S "<p>" ++ T ++ S "</p>") hQnl hstr_nl a
  obtain ⟨p2, hp2⟩ := collapseBr_append (S "<p>" ++ T ++ S "</p>") hQbr hstr_br hws
    (replaceAll (S "\\n") (S "<br>") a)
  have step3 := replaceAll_append_protected (S "<p><br></p>") [] (by decide)
    (S "<p>" ++ T ++ S "</p>") hQpbr hstr_pbr p2
  refine ⟨replaceAll (S "<p><br></p>") [] p2, ?_⟩
  simp only [cleanupPass]
  rw [step1, hp2, step3]

/-- The text of the trailing paragraph: the raw `postingFrequency` string from
the first (case-insensitive) occurrence of `This strategy balances` to its
end, with bold markers removed, escaped-newline sequences replaced by spaces,
and trimmed (line 295). -/
def trailText (s : Str) (i : Nat) : Str :=
  jsTrim (replaceAll (S "\\n") (S " ") (replaceAll (S "**") [] (s.drop i)))

theorem trailerHtml_eq (d : StrategyDoc) (s : Str) (i : Nat)
    (hpf : d.postingFrequency = some (JVal.str s)) (hs : s ≠ [])
    (hidx : indexOfSub (lowerStr s) (S "this strategy balances") = some i) :
    trailerHtml d = S "<p>" ++ trailText s i ++ S "</p>" := by
  simp [trailerHtml, hpf, hs, hidx, trailText]

/-- A document whose only present key is a `postingFrequency` string that
contains the trailer phrase but renders to a suppressed fragment. -/
def docPFSuppressed : StrategyDoc :=
  setKey emptyDoc SectionKey.postingFrequency
    (some (JVal.str (S "not specified\\nThis strategy balances a and b")))

/-- Counterexample to C7: `docPFSuppressed`'s raw `postingFrequency` field
contains a sentence beginning `This strategy balances`, but because its only
section is suppressed (it carries `not specified`), the assembler returns the
fixed all-suppressed fragment before the trailer is ever appended: the output
does not contain the extracted text. -/
theorem assembler_trailer_dropped_when_suppressed :
    hasSub (lowerStr (S "not specified\\nThis strategy balances a and b"))
        (S "this strategy balances") = true ∧
    formatMarketingStrategyToHtml jpNone docPFSuppressed = noStrategyFrag2 ∧
    hasSub (formatMarketingStrategyToHtml jpNone docPFSuppressed)
        (S "This strategy balances") = false := by
  refine ⟨by decide, by decide, by decide⟩

/-- C7 as amended: if at least one section survived suppression, and the raw
`postingFrequency` field is a non-empty string whose lower-casing first
matches `this strategy balances` at index `i`, then the final output ends
with the extracted text as one trailing paragraph `<p>…</p>` — provided the
extracted text contains no line-break markup of its own (no escaped-newline
sequence and no literal `<br>`), which the single-pass cleanup of lines
299-301 could otherwise rewrite inside the paragraph. -/
theorem assembler_trailer_appended (jp : Str → Option JVal) (d : StrategyDoc) (s : Str)
    (i : Nat) (hpf : d.postingFrequency = some (JVal.str s)) (hs : s ≠ [])
    (hidx : indexOfSub (lowerStr s) (S "this strategy balances") = some i)
    (hc : (assembleFold jp d).2 = true)
    (hTnl : hasSub (trailText s i) (S "\\n") = false)
    (hTbr : hasSub (trailText s i) (S "<br>") = false) :
    ∃ pre : Str, formatMarketingStrategyToHtml jp d =
      pre ++ (S "<p>" ++ trailText s i ++ S "</p>") := by
  have hde : docIsEmpty d = false := by
    simp [docIsEmpty, hpf]
  have hht : trailerHtml d = S "<p>" ++ trailText s i ++ S "</p>" :=
    trailerHtml_eq d s i hpf hs hidx
  have hform : formatMarketingStrategyToHtml jp d =
      cleanupPass ((assembleFold jp d).1 ++ trailerHtml d) := by
    simp [formatMarketingStrategyToHtml, hde, hc]
  rw [hform, hht]
  exact cleanupPass_suffix (trailText s i) hTnl hTbr (assembleFold jp d).1

/-- A document with one surviving section and a trailer-bearing
`postingFrequency`. -/
def docPFGood : StrategyDoc :=
  setKey (setKey emptyDoc SectionKey.observations (some (JVal.str (S "- a\\n- b"))))
    SectionKey.postingFrequency
    (some (JVal.str (S "Post daily. This strategy balances reach and effort")))

/-- Witness for `assembler_trailer_appended` at `docPFGood` (the phrase is
found at index 12 of the raw field). -/
theorem assembler_trailer_appended_witness :
    ∃ pre : Str, formatMarketingStrategyToHtml jpNone docPFGood =
      pre ++ (S "<p>" ++
        trailText (S "Post daily. This strategy balances reach and effort") 12 ++
        S "</p>") :=
  assembler_trailer_appended jpNone docPFGood
    (S "Post daily. This strategy balances reach and effort") 12 rfl (by decide)
    (by decide) (by decide) (by decide) (by decide)
